import Mathlib

set_option maxHeartbeats 1000000
set_option maxRecDepth 100000

/-!
Verification of the LICMNA loop-invariant-code-motion pass
(src/LICM/LICMNA.cpp), via a shallow embedding of its data model and of
the functions `hoistInstructions`, `isInSubLoop`, `isLoopInvariant`,
`checkInstructionType`, `checkInstructionOperands`, `safeToHoist` and
`dominatesExits`.

Blocks and instructions are named by natural-number identifiers; a
function is a list of blocks, each holding its ordered instruction list.
The external collaborators (loop structure, dominator tree, loop info,
the speculative-safety oracle `isSafeToSpeculativelyExecute`) are data
parameters, as in the source they are analyses handed to the pass.
-/

namespace LICMNA

/-- Opcodes of the host IR, covering the categories the pass inspects. -/
inductive Opcode where
  | add | sub | mul | udiv | sdiv | urem | srem
  | and | or | xor
  | shl | lshr | ashr
  | select
  | trunc | zext | sext | bitcast
  | getelementptr
  | load | store | call | br | ret | phi
  deriving DecidableEq, Repr

/-- An operand `Value`: a constant, an external (non-instruction)
definition such as a function argument or global, or the result of the
instruction with the given identifier. -/
inductive Value where
  | const (n : Int)
  | external (n : Nat)
  | instr (iid : Nat)
  deriving DecidableEq, Repr

/-- An instruction: stable identifier, opcode, ordered operand list. -/
structure Instruction where
  id : Nat
  opcode : Opcode
  operands : List Value
  deriving DecidableEq, Repr

/-- A basic block: name plus its ordered instruction sequence (the last
instruction of a well-formed block is its terminator). -/
structure BasicBlock where
  name : Nat
  insts : List Instruction
  deriving DecidableEq, Repr

/-- The enclosing function's graph: its list of basic blocks.
Instruction-to-block membership is positional, as in the IR. -/
abbrev Func := List BasicBlock

/-- Model of `llvm::Loop`, restricted to what the pass consults: an identity (for
the pointer comparison in `isInSubLoop`), member blocks, preheader
(`getLoopPreheader` may fail, hence `Option`), unique exit blocks. -/
structure Loop where
  lid : Nat
  blocks : List Nat
  preheader : Option Nat
  exits : List Nat
  deriving DecidableEq, Repr

/-- Model of `llvm::LoopInfo`: innermost loop of each block (`getLoopFor`). -/
structure LoopInfo where
  loopFor : Nat → Option Nat

/-- Model of `llvm::DominatorTree`: preorder block enumeration (the
`GraphTraits` node range of line 88) and the `dominates` predicate. -/
structure DominatorTree where
  preorder : List Nat
  dom : Nat → Nat → Bool

/-- Model of `Instruction::isBinaryOp` (LLVM's binary-operator range, which
includes the shifts). -/
def Instruction.isBinaryOp (I : Instruction) : Bool :=
  match I.opcode with
  | .add | .sub | .mul | .udiv | .sdiv | .urem | .srem
  | .and | .or | .xor | .shl | .lshr | .ashr => true
  | _ => false

/-- Model of `Instruction::isShift`. -/
def Instruction.isShift (I : Instruction) : Bool :=
  match I.opcode with
  | .shl | .lshr | .ashr => true
  | _ => false

/-- Model of `Instruction::isCast`. -/
def Instruction.isCast (I : Instruction) : Bool :=
  match I.opcode with
  | .trunc | .zext | .sext | .bitcast => true
  | _ => false

/-- Model of `isa<SelectInst>`. -/
def isSelectInst (I : Instruction) : Bool :=
  I.opcode == .select

/-- Model of `isa<GetElementPtrInst>`. -/
def isGetElementPtrInst (I : Instruction) : Bool :=
  I.opcode == .getelementptr

/-- Model of `Instruction::isTerminator` (control-transfer opcodes). -/
def Instruction.isTerminator (I : Instruction) : Bool :=
  match I.opcode with
  | .br | .ret => true
  | _ => false

/-- Source lines 122-125: the eligible opcode categories. -/
def checkInstructionType (I : Instruction) : Bool :=
  I.isBinaryOp || I.isShift || isSelectInst I || I.isCast ||
    isGetElementPtrInst I

/-- Look a block up by name in the current graph. -/
def getBlock (F : Func) (bb : Nat) : Option BasicBlock :=
  F.find? (fun B => B.name == bb)

/-- The instruction sequence of the named block (empty when absent). -/
def blockInsts (F : Func) (bb : Nat) : List Instruction :=
  match getBlock F bb with
  | some B => B.insts
  | none => []

/-- Name of the block currently containing the instruction with the
given identifier (`Instruction::getParent`). -/
def getParentName (F : Func) (iid : Nat) : Option Nat :=
  (F.find? (fun B => B.insts.any (fun J => J.id == iid))).map
    (fun B => B.name)

/-- Model of `Loop::contains(Instruction*)`: the defining instruction's parent
block is a member block of the loop.  With globally unique instruction
identifiers (as in the IR, where identity is the object itself) the
existential form below coincides with the parent-based test. -/
def instrInLoop (L : Loop) (F : Func) (iid : Nat) : Bool :=
  F.any (fun B =>
    L.blocks.contains B.name && B.insts.any (fun J => J.id == iid))

/-- Model of `Loop::isLoopInvariant(Value*)`: an instruction result is invariant
iff its defining instruction is not contained in the loop; any
non-instruction value is invariant. -/
def loopIsLoopInvariant (L : Loop) (F : Func) (V : Value) : Bool :=
  match V with
  | .instr iid => !(instrInLoop L F iid)
  | _ => true

/-- Model of `isa<Constant>`. -/
def isConstant (V : Value) : Bool :=
  match V with
  | .const _ => true
  | _ => false

/-- Source lines 127-136: every operand is a constant or loop-invariant
(the loop exits early with false otherwise, which `List.all` models). -/
def checkInstructionOperands (L : Loop) (F : Func) (I : Instruction) : Bool :=
  I.operands.all (fun V => isConstant V || loopIsLoopInvariant L F V)

/-- Source lines 118-120. -/
def isLoopInvariant (L : Loop) (F : Func) (I : Instruction) : Bool :=
  checkInstructionType I && checkInstructionOperands L F I

/-- Model of `DT->dominates(Parent, BB)` where the parent may be absent in the
model; an absent parent dominates nothing. -/
def domFromParent (DT : DominatorTree) (P : Option Nat) (bb : Nat) : Bool :=
  match P with
  | some p => DT.dom p bb
  | none => false

/-- Source lines 143-155: `Dominates` starts at `false` and each exit's
dominance result is conjoined into it with `&=`. -/
def dominatesExits (L : Loop) (DT : DominatorTree) (F : Func)
    (I : Instruction) : Bool :=
  let Parent := getParentName F I.id
  L.exits.foldl (fun d bb => d && domFromParent DT Parent bb) false

/-- Source lines 138-141.  `isSafeSpec` is the external speculative
safety oracle `isSafeToSpeculativelyExecute`. -/
def safeToHoist (isSafeSpec : Instruction → Bool) (L : Loop)
    (DT : DominatorTree) (F : Func) (I : Instruction) : Bool :=
  isSafeSpec I || dominatesExits L DT F I

/-- Source lines 112-116: `getLoopFor` compared against the loop by
identity. -/
def isInSubLoop (L : Loop) (LI : LoopInfo) (bb : Nat) : Bool :=
  !(LI.loopFor bb == some L.lid)

/-- The condition of source line 101. -/
def hoistCheck (isSafeSpec : Instruction → Bool) (L : Loop)
    (DT : DominatorTree) (F : Func) (I : Instruction) : Bool :=
  isLoopInvariant L F I && safeToHoist isSafeSpec L DT F I

/-- Remove the instruction with the given identifier from every block
(with unique identifiers: from its one parent block). -/
def removeInstr (iid : Nat) (F : Func) : Func :=
  F.map (fun B => ⟨B.name, B.insts.filter (fun J => J.id != iid)⟩)

/-- Insert `I` immediately before the instruction with identifier
`destId` in one instruction list (no effect when `destId` is absent). -/
def insertBefore (destId : Nat) (I : Instruction) :
    List Instruction → List Instruction
  | [] => []
  | J :: rest =>
      if J.id = destId then I :: J :: rest
      else J :: insertBefore destId I rest

/-- Insert `I` immediately before the instruction `destId` wherever that
instruction currently lives. -/
def insertBeforeInstr (destId : Nat) (I : Instruction) (F : Func) : Func :=
  F.map (fun B => ⟨B.name, insertBefore destId I B.insts⟩)

/-- Model of `Instruction::moveBefore` (source line 103): unlink from the current
position, re-insert immediately before the destination instruction. -/
def moveBefore (F : Func) (I : Instruction) (destId : Nat) : Func :=
  insertBeforeInstr destId I (removeInstr I.id F)

/-- Model of `BasicBlock::getTerminator`: the block's last instruction. -/
def getTerminator (F : Func) (bb : Nat) : Option Instruction :=
  (blockInsts F bb).getLast?

/-- The driver's evolving state: the graph, the out-parameter
`Instructions`, the `Modified` flag, plus the trace of identifiers of
the instructions examined by the inner loop of lines 95-106. -/
structure HoistState where
  F : Func
  hoisted : List Instruction
  modified : Bool
  examined : List Nat
  deriving DecidableEq, Repr

/-- One iteration of the inner loop (source lines 95-106): the iterator
is advanced before any relocation, then the current instruction is
hoisted when invariant and safe. -/
def processInstr (isSafeSpec : Instruction → Bool) (L : Loop)
    (DT : DominatorTree) (destId : Nat) (S : HoistState)
    (I : Instruction) : HoistState :=
  if hoistCheck isSafeSpec L DT S.F I then
    ⟨moveBefore S.F I destId, S.hoisted ++ [I], true, S.examined ++ [I.id]⟩
  else
    ⟨S.F, S.hoisted, S.modified, S.examined ++ [I.id]⟩

/-- Process one retained block: iterate over its instruction sequence as
it stands when the block is reached. -/
def processBlock (isSafeSpec : Instruction → Bool) (L : Loop)
    (DT : DominatorTree) (destId : Nat) (S : HoistState) (bb : Nat) :
    HoistState :=
  (blockInsts S.F bb).foldl (processInstr isSafeSpec L DT destId) S

/-- Source lines 80-110.  A missing preheader (or a preheader with no
terminator) is a fatal precondition violation: the driver dereferences
the null preheader and the invocation aborts before examining any
instruction, modelled by `none`. -/
def hoistInstructions (isSafeSpec : Instruction → Bool)
    (DT : DominatorTree) (LI : LoopInfo) (L : Loop) (F : Func) :
    Option HoistState :=
  match L.preheader with
  | none => none
  | some ph =>
    match getTerminator F ph with
    | none => none
    | some dest =>
      some (DT.preorder.foldl
        (fun S bb =>
          if !(L.blocks.contains bb) || isInSubLoop L LI bb then S
          else processBlock isSafeSpec L DT dest.id S bb)
        ⟨F, [], false, []⟩)

/-- A block is retained by the traversal (not skipped by line 91) iff it
is a loop member whose innermost loop is the given loop itself. -/
def retainedB (L : Loop) (LI : LoopInfo) (bb : Nat) : Bool :=
  L.blocks.contains bb && !(isInSubLoop L LI bb)

/-- Identifiers of all instructions of the graph, in block order. -/
def allIds (F : Func) : List Nat :=
  F.flatMap (fun B => B.insts.map (fun J => J.id))

/-- All instructions of the graph, in block order. -/
def allInstrs (F : Func) : List Instruction :=
  F.flatMap (fun B => B.insts)

/-- The flat schedule of the traversal: the instruction sequences of the
retained blocks, in dominator-tree preorder, as they stand at entry. -/
def sched (DT : DominatorTree) (LI : LoopInfo) (L : Loop) (F : Func) :
    List Instruction :=
  (DT.preorder.filter (retainedB L LI)).flatMap (blockInsts F)

/-! ### The dominance accumulator -/

theorem foldl_band_false {α : Type} (f : α → Bool) (l : List α) :
    l.foldl (fun d x => d && f x) false = false := by
  induction l with
  | nil => rfl
  | cons x xs ih => simpa only [List.foldl_cons, Bool.false_and] using ih

theorem dominatesExits_eq_false (L : Loop) (DT : DominatorTree) (F : Func)
    (I : Instruction) : dominatesExits L DT F I = false := by
  unfold dominatesExits
  exact foldl_band_false _ _

theorem safeToHoist_eq_oracle (isSafeSpec : Instruction → Bool) (L : Loop)
    (DT : DominatorTree) (F : Func) (I : Instruction) :
    safeToHoist isSafeSpec L DT F I = isSafeSpec I := by
  unfold safeToHoist
  rw [dominatesExits_eq_false, Bool.or_false]

/-! ### Concrete input programs -/

/-- A division by an external divisor: not unconditionally speculatively
safe (it may trap on a zero divisor). -/
def divInstr : Instruction := ⟨1, .udiv, [.external 10, .external 11]⟩

/-- An unconditional branch with the given identifier. -/
def brInstr (iid : Nat) : Instruction := ⟨iid, .br, []⟩

/-- Oracle deeming no instruction speculatively safe. -/
def oracleFalse : Instruction → Bool := fun _ => false

/-- Oracle deeming every instruction speculatively safe. -/
def oracleTrue : Instruction → Bool := fun _ => true

/-- Preheader block 0, loop body block 2 holding the division, exit
block 3. -/
def exF1 : Func := [⟨0, [brInstr 100]⟩, ⟨2, [divInstr, brInstr 101]⟩]

def exL1 : Loop := ⟨0, [2], some 0, [3]⟩

def exLI1 : LoopInfo := ⟨fun bb => if bb = 2 then some 0 else none⟩

/-- A dominator tree in which every block dominates every block, so in
particular the division's block dominates the one exit block. -/
def exDT1 : DominatorTree := ⟨[0, 2, 3], fun _ _ => true⟩

/-! ### C1 -/

/-- C1: the claim says that an instruction whose block dominates every
exit block of the loop makes `safeToHoist` true even when the
speculative-safety oracle rejects it.  The code contradicts this: with
the division in block 2, block 2 dominating the single exit block 3,
and the oracle answering false, `dominatesExits` still answers false
(its accumulator starts at `false` on line 149 and is only conjoined),
so `safeToHoist` answers false. -/
theorem dominance_branch_never_fires :
    getParentName exF1 divInstr.id = some 2 ∧
    (∀ e ∈ exL1.exits, exDT1.dom 2 e = true) ∧
    oracleFalse divInstr = false ∧
    dominatesExits exL1 exDT1 exF1 divInstr = false ∧
    safeToHoist oracleFalse exL1 exDT1 exF1 divInstr = false := by
  decide

/-! ### C2 -/

/-- C2: `dominatesExits` initializes its accumulator to `false` and only
conjoins further dominance results into it, so it returns `false` on
every input, and consequently `safeToHoist` is extensionally equal to
the speculative-safety oracle applied alone. -/
theorem safeToHoist_collapses_to_oracle (isSafeSpec : Instruction → Bool)
    (L : Loop) (DT : DominatorTree) (F : Func) (I : Instruction) :
    dominatesExits L DT F I = false ∧
      safeToHoist isSafeSpec L DT F I = isSafeSpec I :=
  ⟨dominatesExits_eq_false L DT F I,
    safeToHoist_eq_oracle isSafeSpec L DT F I⟩

/-! ### C10 -/

/-- C10: when the loop has no valid preheader, the invocation aborts at
once (`getLoopPreheader` yields null and line 85 dereferences it): no
state is produced, no instruction is examined or moved, and nothing is
caught or recovered internally. -/
theorem missing_preheader_aborts (isSafeSpec : Instruction → Bool)
    (DT : DominatorTree) (LI : LoopInfo) (L : Loop) (F : Func)
    (h : L.preheader = none) :
    hoistInstructions isSafeSpec DT LI L F = none := by
  unfold hoistInstructions
  rw [h]

/-- Witness for C10 at a concrete loop without a preheader. -/
theorem missing_preheader_aborts_witness :
    hoistInstructions oracleFalse exDT1 exLI1 ⟨0, [2], none, [3]⟩ exF1 =
      none :=
  missing_preheader_aborts oracleFalse exDT1 exLI1 ⟨0, [2], none, [3]⟩
    exF1 rfl

/-! ### C6 -/

/-- The instruction `u = a + b` with both operands defined outside the loop. -/
def uInstr : Instruction := ⟨1, .add, [.external 10, .external 11]⟩

/-- The instruction `v = u * c` depending on `u` and an external `c`. -/
def vInstr : Instruction := ⟨2, .mul, [.instr 1, .external 12]⟩

/-- Preheader block 0, loop body block 7 holding the dependent pair. -/
def exF6 : Func := [⟨0, [brInstr 100]⟩, ⟨7, [uInstr, vInstr, brInstr 3]⟩]

def exL6 : Loop := ⟨0, [7], some 0, [5]⟩

def exLI6 : LoopInfo := ⟨fun bb => if bb = 7 then some 0 else none⟩

def exDT6 : DominatorTree := ⟨[0, 7, 5], fun _ _ => false⟩

/-- C6: for the dependent pair `u = a + b; v = u * c` with `a`, `b`, `c`
all invariant and both instructions safe to hoist, one invocation of the
driver relocates both into the preheader immediately before its
terminator with `u` preceding `v`, and the returned list records them in
program order of discovery; the driver reports a modification. -/
theorem dependent_pair_hoisted_in_order :
    hoistInstructions oracleTrue exDT6 exLI6 exL6 exF6 =
      some ⟨[⟨0, [uInstr, vInstr, brInstr 100]⟩, ⟨7, [brInstr 3]⟩],
        [uInstr, vInstr], true, [1, 2, 3]⟩ := by
  decide

/-! ### Fold invariants of the driver -/

theorem foldl_preserve {α β : Type} (P : α → Prop) (g : α → β → α)
    (hg : ∀ a b, P a → P (g a b)) :
    ∀ (l : List β) (a : α), P a → P (l.foldl g a) := by
  intro l
  induction l with
  | nil => intro a ha; exact ha
  | cons x xs ih => intro a ha; exact ih (g a x) (hg a x ha)

/-- Destructure a successful driver invocation into its preheader, the
captured insertion point, and the block-traversal fold. -/
theorem hoistInstructions_fold (isSafeSpec : Instruction → Bool)
    (DT : DominatorTree) (LI : LoopInfo) (L : Loop) (F : Func)
    (S : HoistState) (h : hoistInstructions isSafeSpec DT LI L F = some S) :
    ∃ ph dest, L.preheader = some ph ∧ getTerminator F ph = some dest ∧
      S = DT.preorder.foldl
        (fun T bb =>
          if !(L.blocks.contains bb) || isInSubLoop L LI bb then T
          else processBlock isSafeSpec L DT dest.id T bb)
        ⟨F, [], false, []⟩ := by
  unfold hoistInstructions at h
  split at h
  · exact absurd h (by simp)
  · rename_i ph hph
    split at h
    · exact absurd h (by simp)
    · rename_i dest hdest
      exact ⟨ph, dest, hph, hdest, (Option.some.inj h).symm⟩

/-- Any property preserved by each instruction examination holds of the
final state of a successful invocation. -/
theorem hoist_preserve (isSafeSpec : Instruction → Bool)
    (DT : DominatorTree) (LI : LoopInfo) (L : Loop) (F : Func)
    (S : HoistState) (P : HoistState → Prop)
    (hstep : ∀ d T I, P T → P (processInstr isSafeSpec L DT d T I))
    (hinit : P ⟨F, [], false, []⟩)
    (h : hoistInstructions isSafeSpec DT LI L F = some S) : P S := by
  obtain ⟨ph, dest, hph, hterm, rfl⟩ :=
    hoistInstructions_fold isSafeSpec DT LI L F S h
  apply foldl_preserve
  · intro a bb ha
    dsimp only
    split
    · exact ha
    · unfold processBlock
      exact foldl_preserve P (processInstr isSafeSpec L DT dest.id)
        (fun T I hT => hstep dest.id T I hT) _ a ha
  · exact hinit

/-! ### C8 -/

/-- C8: the returned `Modified` flag is true exactly when at least one
instruction was relocated, i.e. exactly when the returned ordered list
of hoisted instructions is non-empty. -/
theorem modified_iff_hoisted_nonempty (isSafeSpec : Instruction → Bool)
    (DT : DominatorTree) (LI : LoopInfo) (L : Loop) (F : Func)
    (S : HoistState) (h : hoistInstructions isSafeSpec DT LI L F = some S) :
    S.modified = true ↔ S.hoisted ≠ [] := by
  apply hoist_preserve isSafeSpec DT LI L F S
    (fun T => (T.modified = true ↔ T.hoisted ≠ [])) _ _ h
  · intro d T I hT
    unfold processInstr
    split
    · simp
    · exact hT
  · simp

/-- The state of the dependent-pair example after one invocation. -/
def exS6 : HoistState :=
  ⟨[⟨0, [uInstr, vInstr, brInstr 100]⟩, ⟨7, [brInstr 3]⟩],
    [uInstr, vInstr], true, [1, 2, 3]⟩

/-- Witness for C8 on the dependent-pair program. -/
theorem modified_iff_hoisted_nonempty_witness :
    exS6.modified = true ↔ exS6.hoisted ≠ [] :=
  modified_iff_hoisted_nonempty oracleTrue exDT6 exLI6 exL6 exF6 exS6
    (by decide)

/-! ### C3 -/

/-- Every instruction ever appended to the output list passed the
eligibility test, hence has an eligible opcode category. -/
theorem hoisted_type_true (isSafeSpec : Instruction → Bool)
    (DT : DominatorTree) (LI : LoopInfo) (L : Loop) (F : Func)
    (S : HoistState) (h : hoistInstructions isSafeSpec DT LI L F = some S) :
    ∀ J ∈ S.hoisted, checkInstructionType J = true := by
  apply hoist_preserve isSafeSpec DT LI L F S
    (fun T => ∀ J ∈ T.hoisted, checkInstructionType J = true) _ _ h
  · intro d T I hT
    unfold processInstr
    split
    · rename_i hc
      intro J hJ
      rcases List.mem_append.mp hJ with hJ | hJ
      · exact hT J hJ
      · obtain rfl := List.mem_singleton.mp hJ
        unfold hoistCheck isLoopInvariant at hc
        simp only [Bool.and_eq_true] at hc
        exact hc.1.1
    · exact hT
  · simp

/-- C3: an instruction whose opcode category is outside the eligible set
(pure arithmetic/logical, shift, cast, address computation, select) is
classified non-invariant regardless of its operands, and is never in the
hoisted list the driver returns — in particular a memory load with
invariant operands is never hoisted, whatever the safety oracle says. -/
theorem ineligible_opcode_never_hoisted (isSafeSpec : Instruction → Bool)
    (DT : DominatorTree) (LI : LoopInfo) (L : Loop) (F : Func)
    (S : HoistState) (I : Instruction)
    (hty : checkInstructionType I = false)
    (hrun : hoistInstructions isSafeSpec DT LI L F = some S) :
    isLoopInvariant L F I = false ∧ I ∉ S.hoisted := by
  constructor
  · unfold isLoopInvariant
    rw [hty, Bool.false_and]
  · intro hmem
    have := hoisted_type_true isSafeSpec DT LI L F S hrun I hmem
    rw [hty] at this
    exact Bool.false_ne_true this

/-- A memory load whose one address operand is invariant (external). -/
def loadInstr : Instruction := ⟨1, .load, [.external 10]⟩

/-- The division of `exF1` replaced by a load with invariant operands. -/
def exF3 : Func := [⟨0, [brInstr 100]⟩, ⟨2, [loadInstr, brInstr 101]⟩]

/-- Witness for C3: the load with invariant operands, under an oracle
that calls everything safe, is still not invariant and not hoisted. -/
theorem ineligible_opcode_never_hoisted_witness :
    isLoopInvariant exL1 exF3 loadInstr = false ∧
      loadInstr ∉ (HoistState.mk exF3 [] false [1, 101]).hoisted :=
  ineligible_opcode_never_hoisted oracleTrue exDT1 exLI1 exL1 exF3
    ⟨exF3, [], false, [1, 101]⟩ loadInstr (by decide) (by decide)

/-! ### C4 -/

/-- The claim's notion of an invariant operand: a constant, an external
(non-instruction) definition, or the result of an instruction that is
not a member of the loop at the time of the query. -/
def operandInvariantSpec (L : Loop) (F : Func) (V : Value) : Prop :=
  (∃ n, V = .const n) ∨ (∃ n, V = .external n) ∨
    (∃ iid, V = .instr iid ∧ instrInLoop L F iid = false)

/-- C4: for an instruction of eligible opcode category, the classifier
answers true iff every operand is a constant, an external definition, or
the result of an instruction not currently a member of the loop. -/
theorem eligible_invariant_iff_operands (L : Loop) (F : Func)
    (I : Instruction) (hty : checkInstructionType I = true) :
    isLoopInvariant L F I = true ↔
      ∀ V ∈ I.operands, operandInvariantSpec L F V := by
  unfold isLoopInvariant
  rw [hty, Bool.true_and]
  unfold checkInstructionOperands
  rw [List.all_eq_true]
  constructor
  · intro h V hV
    have hVt := h V hV
    cases V with
    | const n => exact Or.inl ⟨n, rfl⟩
    | external n => exact Or.inr (Or.inl ⟨n, rfl⟩)
    | instr iid =>
      refine Or.inr (Or.inr ⟨iid, rfl, ?_⟩)
      simp only [isConstant, loopIsLoopInvariant, Bool.false_or,
        Bool.not_eq_true'] at hVt
      exact hVt
  · intro h V hV
    rcases h V hV with ⟨n, hn⟩ | ⟨n, hn⟩ | ⟨iid, hn, hin⟩ <;> subst hn
    · simp [isConstant]
    · simp [isConstant, loopIsLoopInvariant]
    · simp [isConstant, loopIsLoopInvariant, hin]

/-- Witness for C4 at the eligible `add` of the dependent pair. -/
theorem eligible_invariant_iff_operands_witness :
    isLoopInvariant exL6 exF6 uInstr = true ↔
      ∀ V ∈ uInstr.operands, operandInvariantSpec exL6 exF6 V :=
  eligible_invariant_iff_operands exL6 exF6 uInstr (by decide)

/-! ### Structural lemmas about relocation -/

theorem natContains_iff {l : List Nat} {a : Nat} :
    l.contains a = true ↔ a ∈ l := List.elem_iff

theorem bne_comm_nat (a b : Nat) : (a != b) = (b != a) := by
  rw [Bool.eq_iff_iff]
  simp only [bne_iff_ne]
  exact ne_comm

theorem getBlock_mapInsts (g : List Instruction → List Instruction)
    (F : Func) (bb : Nat) :
    getBlock (F.map (fun B => ⟨B.name, g B.insts⟩)) bb =
      (getBlock F bb).map (fun B => ⟨B.name, g B.insts⟩) := by
  unfold getBlock
  rw [List.find?_map]
  rfl

theorem blockInsts_mapInsts (g : List Instruction → List Instruction)
    (hg : g [] = []) (F : Func) (bb : Nat) :
    blockInsts (F.map (fun B => ⟨B.name, g B.insts⟩)) bb =
      g (blockInsts F bb) := by
  unfold blockInsts
  rw [getBlock_mapInsts]
  cases getBlock F bb with
  | none => simpa using hg.symm
  | some B => rfl

theorem blockInsts_removeInstr (i : Nat) (F : Func) (bb : Nat) :
    blockInsts (removeInstr i F) bb =
      (blockInsts F bb).filter (fun J => J.id != i) :=
  blockInsts_mapInsts _ rfl F bb

theorem blockInsts_insertBeforeInstr (d : Nat) (I : Instruction) (F : Func)
    (bb : Nat) :
    blockInsts (insertBeforeInstr d I F) bb =
      insertBefore d I (blockInsts F bb) :=
  blockInsts_mapInsts _ rfl F bb

theorem blockInsts_moveBefore (F : Func) (I : Instruction) (d : Nat)
    (bb : Nat) :
    blockInsts (moveBefore F I d) bb =
      insertBefore d I ((blockInsts F bb).filter (fun J => J.id != I.id)) := by
  unfold moveBefore
  rw [blockInsts_insertBeforeInstr, blockInsts_removeInstr]

theorem names_moveBefore (F : Func) (I : Instruction) (d : Nat) :
    (moveBefore F I d).map (fun B => B.name) = F.map (fun B => B.name) := by
  unfold moveBefore insertBeforeInstr removeInstr
  rw [List.map_map, List.map_map]
  rfl

theorem insertBefore_cons (d : Nat) (I J : Instruction)
    (l : List Instruction) :
    insertBefore d I (J :: l) =
      if J.id = d then I :: J :: l else J :: insertBefore d I l := rfl

theorem insertBefore_not_mem (d : Nat) (I : Instruction)
    (l : List Instruction) (h : ∀ J ∈ l, J.id ≠ d) :
    insertBefore d I l = l := by
  induction l with
  | nil => rfl
  | cons J rest ih =>
    rw [insertBefore_cons]
    rw [if_neg (h J (List.mem_cons_self J rest))]
    rw [ih (fun K hK => h K (List.mem_cons_of_mem J hK))]

theorem insertBefore_append_left (d : Nat) (I : Instruction)
    (l1 l2 : List Instruction) (h : ∀ J ∈ l1, J.id ≠ d) :
    insertBefore d I (l1 ++ l2) = l1 ++ insertBefore d I l2 := by
  induction l1 with
  | nil => rfl
  | cons J rest ih =>
    rw [List.cons_append, insertBefore_cons]
    rw [if_neg (h J (List.mem_cons_self J rest))]
    rw [ih (fun K hK => h K (List.mem_cons_of_mem J hK))]
    rfl

theorem insertBefore_cons_eq (d : Nat) (I J : Instruction)
    (l : List Instruction) (h : J.id = d) :
    insertBefore d I (J :: l) = I :: J :: l := by
  rw [insertBefore_cons]
  rw [if_pos h]

theorem mem_insertBefore (d : Nat) (I : Instruction) (l : List Instruction) :
    ∀ K ∈ insertBefore d I l, K = I ∨ K ∈ l := by
  induction l with
  | nil => intro K hK; exact absurd hK (by simp [insertBefore])
  | cons J rest ih =>
    intro K hK
    unfold insertBefore at hK
    split at hK
    · rcases List.mem_cons.mp hK with rfl | hK
      · exact Or.inl rfl
      · exact Or.inr hK
    · rcases List.mem_cons.mp hK with rfl | hK
      · exact Or.inr (List.mem_cons_self _ _)
      · rcases ih K hK with rfl | hK
        · exact Or.inl rfl
        · exact Or.inr (List.mem_cons_of_mem _ hK)

theorem insertBefore_perm (d : Nat) (I : Instruction) (l : List Instruction) :
    if ∃ J ∈ l, J.id = d then (insertBefore d I l).Perm (I :: l)
    else insertBefore d I l = l := by
  induction l with
  | nil => simp [insertBefore]
  | cons J rest ih =>
    by_cases hJ : J.id = d
    · rw [if_pos ⟨J, List.mem_cons_self _ _, hJ⟩]
      rw [insertBefore_cons_eq d I J rest hJ]
    · by_cases hrest : ∃ K ∈ rest, K.id = d
      · rw [if_pos ⟨hrest.choose, List.mem_cons_of_mem _ hrest.choose_spec.1,
          hrest.choose_spec.2⟩]
        unfold insertBefore
        rw [if_neg hJ]
        rw [if_pos hrest] at ih
        exact (ih.cons J).trans (List.Perm.swap I J rest)
      · rw [if_neg (by
          rintro ⟨K, hK, hKd⟩
          rcases List.mem_cons.mp hK with rfl | hK
          · exact hJ hKd
          · exact hrest ⟨K, hK, hKd⟩)]
        unfold insertBefore
        rw [if_neg hJ]
        rw [if_neg hrest] at ih
        rw [ih]

theorem any_id_filter (l : List Instruction) (i j : Nat) (hij : j ≠ i) :
    (l.filter (fun J => J.id != i)).any (fun J => J.id == j) =
      l.any (fun J => J.id == j) := by
  induction l with
  | nil => rfl
  | cons J rest ih =>
    by_cases hJ : J.id = i
    · have h1 : (J.id != i) = false := by simp [hJ]
      have h2 : (J.id == j) = false :=
        beq_eq_false_iff_ne.mpr (by rw [hJ]; exact fun h => hij h.symm)
      simp [h1, h2, ih]
    · have h1 : (J.id != i) = true := bne_iff_ne.mpr hJ
      simp [h1, ih]

theorem any_id_insertBefore (d : Nat) (I : Instruction) (j : Nat)
    (hij : I.id ≠ j) (l : List Instruction) :
    (insertBefore d I l).any (fun J => J.id == j) =
      l.any (fun J => J.id == j) := by
  induction l with
  | nil => rfl
  | cons J rest ih =>
    unfold insertBefore
    split
    · have hI : (I.id == j) = false := beq_eq_false_iff_ne.mpr hij
      simp [List.any_cons, hI]
    · simp only [List.any_cons]
      rw [ih]

theorem instrInLoop_moveBefore (L : Loop) (F : Func) (I : Instruction)
    (d : Nat) (j : Nat) (hj : j ≠ I.id) :
    instrInLoop L (moveBefore F I d) j = instrInLoop L F j := by
  have hinner : ∀ insts : List Instruction,
      (insertBefore d I (insts.filter (fun J => J.id != I.id))).any
          (fun J => J.id == j) =
        insts.any (fun J => J.id == j) := by
    intro insts
    rw [any_id_insertBefore d I j (fun h => hj h.symm)]
    exact any_id_filter insts I.id j hj
  unfold instrInLoop moveBefore insertBeforeInstr removeInstr
  induction F with
  | nil => rfl
  | cons B rest ih =>
    simp only [List.map_cons, List.any_cons]
    rw [ih, hinner B.insts]

/-! ### Identifier uniqueness across blocks -/

theorem allIds_cons (B : BasicBlock) (rest : Func) :
    allIds (B :: rest) = B.insts.map (fun J => J.id) ++ allIds rest := by
  simp [allIds]

theorem blockIds_disjoint_aux :
    ∀ F : Func, (allIds F).Nodup →
      ∀ B1 ∈ F, ∀ B2 ∈ F, B1.name ≠ B2.name →
        ∀ j, j ∈ B1.insts.map (fun J => J.id) →
          j ∉ B2.insts.map (fun J => J.id) := by
  intro F
  induction F with
  | nil => intro _ B1 h1; exact absurd h1 (List.not_mem_nil B1)
  | cons B rest ih =>
    intro h B1 h1 B2 h2 hne j hj1 hj2
    rw [allIds_cons] at h
    have hdisj := List.disjoint_of_nodup_append h
    have hrest := h.of_append_right
    rcases List.mem_cons.mp h1 with h1e | h1m
    · rcases List.mem_cons.mp h2 with h2e | h2m
      · exact hne (by rw [h1e, h2e])
      · rw [h1e] at hj1
        exact hdisj hj1 (by
          simp only [allIds, List.mem_flatMap]
          exact ⟨B2, h2m, hj2⟩)
    · rcases List.mem_cons.mp h2 with h2e | h2m
      · rw [h2e] at hj2
        exact hdisj hj2 (by
          simp only [allIds, List.mem_flatMap]
          exact ⟨B1, h1m, hj1⟩)
      · exact ih hrest B1 h1m B2 h2m hne j hj1 hj2

theorem getBlock_name {F : Func} {bb : Nat} {B : BasicBlock}
    (h : getBlock F bb = some B) : B.name = bb := by
  have := List.find?_some h
  simpa using this

theorem getBlock_mem {F : Func} {bb : Nat} {B : BasicBlock}
    (h : getBlock F bb = some B) : B ∈ F :=
  List.mem_of_find?_eq_some h

theorem blockIds_disjoint (F : Func) (h : (allIds F).Nodup) (b1 b2 : Nat)
    (hne : b1 ≠ b2) (j : Nat)
    (hj : j ∈ (blockInsts F b1).map (fun J => J.id)) :
    j ∉ (blockInsts F b2).map (fun J => J.id) := by
  cases h1 : getBlock F b1 with
  | none => rw [blockInsts, h1] at hj; exact absurd hj (by simp)
  | some B1 =>
    cases h2 : getBlock F b2 with
    | none => rw [blockInsts, h2]; simp
    | some B2 =>
      rw [blockInsts, h1] at hj
      rw [blockInsts, h2]
      refine blockIds_disjoint_aux F h B1 (getBlock_mem h1) B2
        (getBlock_mem h2) ?_ j hj
      rw [getBlock_name h1, getBlock_name h2]
      exact hne

theorem blockIds_nodup (F : Func) (h : (allIds F).Nodup) (bb : Nat) :
    ((blockInsts F bb).map (fun J => J.id)).Nodup := by
  cases hg : getBlock F bb with
  | none => rw [blockInsts, hg]; exact List.nodup_nil
  | some B =>
    rw [blockInsts, hg]
    obtain ⟨l1, l2, rfl⟩ := List.append_of_mem (getBlock_mem hg)
    have hsub : List.Sublist (B.insts.map (fun J => J.id))
        (allIds (l1 ++ B :: l2)) := by
      have hflat : allIds (l1 ++ B :: l2) =
          allIds l1 ++ (B.insts.map (fun J => J.id) ++ allIds l2) := by
        simp [allIds]
      rw [hflat]
      exact ((List.sublist_append_left _ _).trans
        (List.sublist_append_right _ _))
    exact hsub.nodup h

theorem allIds_eq_map_allInstrs (F : Func) :
    allIds F = (allInstrs F).map (fun J => J.id) := by
  simp [allIds, allInstrs, List.map_flatMap]

theorem mem_allInstrs_of_mem_blockInsts {F : Func} {bb : Nat}
    {I : Instruction} (h : I ∈ blockInsts F bb) : I ∈ allInstrs F := by
  cases hg : getBlock F bb with
  | none => rw [blockInsts, hg] at h; exact absurd h (List.not_mem_nil I)
  | some B =>
    rw [blockInsts, hg] at h
    exact List.mem_flatMap.mpr ⟨B, getBlock_mem hg, h⟩

/-! ### The traversal touches later blocks only at their own turn -/

theorem blockInsts_processInstr_other (s : Instruction → Bool) (L : Loop)
    (DT : DominatorTree) (d : Nat) (S : HoistState) (I : Instruction)
    (bb : Nat) (hI : ∀ J ∈ blockInsts S.F bb, J.id ≠ I.id)
    (hd : ∀ J ∈ blockInsts S.F bb, J.id ≠ d) :
    blockInsts (processInstr s L DT d S I).F bb = blockInsts S.F bb := by
  unfold processInstr
  split
  · dsimp only
    rw [blockInsts_moveBefore]
    rw [List.filter_eq_self.mpr (fun J hJ => bne_iff_ne.mpr (hI J hJ))]
    exact insertBefore_not_mem d I _ hd
  · rfl

theorem blockInsts_foldl_other (s : Instruction → Bool) (L : Loop)
    (DT : DominatorTree) (d : Nat) (bb : Nat) :
    ∀ (l : List Instruction) (S : HoistState),
      (∀ I ∈ l, ∀ J ∈ blockInsts S.F bb, J.id ≠ I.id) →
      (∀ J ∈ blockInsts S.F bb, J.id ≠ d) →
      blockInsts ((l.foldl (processInstr s L DT d) S)).F bb =
        blockInsts S.F bb := by
  intro l
  induction l with
  | nil => intro S _ _; rfl
  | cons I rest ih =>
    intro S h1 h2
    have hstep : blockInsts (processInstr s L DT d S I).F bb =
        blockInsts S.F bb :=
      blockInsts_processInstr_other s L DT d S I bb
        (h1 I (List.mem_cons_self I rest)) h2
    rw [List.foldl_cons]
    have h1' : ∀ I2 ∈ rest,
        ∀ J ∈ blockInsts (processInstr s L DT d S I).F bb, J.id ≠ I2.id := by
      intro I2 hI2 J hJ
      rw [hstep] at hJ
      exact h1 I2 (List.mem_cons_of_mem _ hI2) J hJ
    have h2' : ∀ J ∈ blockInsts (processInstr s L DT d S I).F bb,
        J.id ≠ d := by
      intro J hJ
      rw [hstep] at hJ
      exact h2 J hJ
    rw [ih _ h1' h2', hstep]

theorem blockInsts_processBlock_other (s : Instruction → Bool) (L : Loop)
    (DT : DominatorTree) (d : Nat) (S : HoistState) (bb2 bb : Nat)
    (hdisj : ∀ J ∈ blockInsts S.F bb, ∀ K ∈ blockInsts S.F bb2, J.id ≠ K.id)
    (hd : ∀ J ∈ blockInsts S.F bb, J.id ≠ d) :
    blockInsts (processBlock s L DT d S bb2).F bb = blockInsts S.F bb := by
  unfold processBlock
  apply blockInsts_foldl_other
  · intro I hI J hJ
    exact hdisj J hJ I hI
  · exact hd

/-! ### The traversal flattens to the schedule -/

theorem foldl_processBlock_flat (s : Instruction → Bool) (L : Loop)
    (DT : DominatorTree) (d : Nat) :
    ∀ (bbs : List Nat) (S : HoistState),
      bbs.Nodup →
      (∀ b1 ∈ bbs, ∀ b2 ∈ bbs, b1 ≠ b2 →
        ∀ J ∈ blockInsts S.F b1, ∀ K ∈ blockInsts S.F b2, J.id ≠ K.id) →
      (∀ b ∈ bbs, ∀ J ∈ blockInsts S.F b, J.id ≠ d) →
      bbs.foldl (processBlock s L DT d) S =
        (bbs.flatMap (blockInsts S.F)).foldl (processInstr s L DT d) S := by
  intro bbs
  induction bbs with
  | nil => intro S _ _ _; rfl
  | cons b rest ih =>
    intro S hnd hdisj hd
    obtain ⟨hbmem, hndrest⟩ := List.nodup_cons.mp hnd
    rw [List.foldl_cons, List.flatMap_cons, List.foldl_append]
    have hPB : (blockInsts S.F b).foldl (processInstr s L DT d) S =
        processBlock s L DT d S b := rfl
    rw [hPB]
    have huntouched : ∀ b' ∈ rest,
        blockInsts (processBlock s L DT d S b).F b' = blockInsts S.F b' := by
      intro b' hb'
      have hne : b' ≠ b := fun hEq => hbmem (hEq ▸ hb')
      apply blockInsts_processBlock_other
      · intro J hJ K hK
        exact hdisj b' (List.mem_cons_of_mem _ hb') b
          (List.mem_cons_self _ _) hne J hJ K hK
      · exact hd b' (List.mem_cons_of_mem _ hb')
    have hdisj' : ∀ b1 ∈ rest, ∀ b2 ∈ rest, b1 ≠ b2 →
        ∀ J ∈ blockInsts (processBlock s L DT d S b).F b1,
          ∀ K ∈ blockInsts (processBlock s L DT d S b).F b2, J.id ≠ K.id := by
      intro b1 h1 b2 h2 hne J hJ K hK
      rw [huntouched b1 h1] at hJ
      rw [huntouched b2 h2] at hK
      exact hdisj b1 (List.mem_cons_of_mem _ h1) b2
        (List.mem_cons_of_mem _ h2) hne J hJ K hK
    have hd' : ∀ b' ∈ rest,
        ∀ J ∈ blockInsts (processBlock s L DT d S b).F b', J.id ≠ d := by
      intro b' hb' J hJ
      rw [huntouched b' hb'] at hJ
      exact hd b' (List.mem_cons_of_mem _ hb') J hJ
    rw [ih _ hndrest hdisj' hd']
    rw [List.flatMap_congr (fun b' hb' => huntouched b' hb')]

theorem cond_eq_retained (L : Loop) (LI : LoopInfo) (bb : Nat) :
    (!(L.blocks.contains bb) || isInSubLoop L LI bb) =
      !(retainedB L LI bb) := by
  unfold retainedB
  cases hc : L.blocks.contains bb <;> cases hs : isInSubLoop L LI bb <;>
    simp [hc, hs]

theorem foldl_skip_filter (s : Instruction → Bool) (L : Loop)
    (DT : DominatorTree) (LI : LoopInfo) (d : Nat) :
    ∀ (l : List Nat) (S : HoistState),
      l.foldl
        (fun T bb =>
          if !(L.blocks.contains bb) || isInSubLoop L LI bb then T
          else processBlock s L DT d T bb) S
      = (l.filter (retainedB L LI)).foldl (processBlock s L DT d) S := by
  intro l
  induction l with
  | nil => intro S; rfl
  | cons bb rest ih =>
    intro S
    rw [List.foldl_cons, List.filter_cons]
    cases hr : retainedB L LI bb with
    | false =>
      have hstep : (if !(L.blocks.contains bb) || isInSubLoop L LI bb then S
          else processBlock s L DT d S bb) = S := by
        rw [cond_eq_retained, hr]
        rfl
      rw [hstep, if_neg Bool.false_ne_true]
      exact ih S
    | true =>
      have hstep : (if !(L.blocks.contains bb) || isInSubLoop L LI bb then S
          else processBlock s L DT d S bb) = processBlock s L DT d S bb := by
        rw [cond_eq_retained, hr]
        rfl
      rw [hstep, if_pos rfl, List.foldl_cons]
      exact ih (processBlock s L DT d S bb)

/-! ### Well-formed inputs and the bridge -/

/-- The structural preconditions the pass may assume: globally unique
instruction identifiers, a duplicate-free dominator preorder covering
the loop's retained blocks, and a preheader that is not itself a loop
member (the shape LoopSimplify establishes). -/
def WF (DT : DominatorTree) (LI : LoopInfo) (L : Loop) (F : Func)
    (ph : Nat) : Prop :=
  (allIds F).Nodup ∧ DT.preorder.Nodup ∧ L.preheader = some ph ∧
    ph ∉ L.blocks ∧
    ∀ bb ∈ L.blocks, retainedB L LI bb = true → bb ∈ DT.preorder

theorem retainedB_mem_blocks {L : Loop} {LI : LoopInfo} {bb : Nat}
    (h : retainedB L LI bb = true) : bb ∈ L.blocks := by
  unfold retainedB at h
  simp only [Bool.and_eq_true] at h
  exact natContains_iff.mp h.1

theorem WF.retainedB_ph {DT : DominatorTree} {LI : LoopInfo} {L : Loop}
    {F : Func} {ph : Nat} (hwf : WF DT LI L F ph) :
    retainedB L LI ph = false := by
  cases hr : retainedB L LI ph with
  | false => rfl
  | true => exact absurd (retainedB_mem_blocks hr) hwf.2.2.2.1

theorem WF.retained_mem_preorder {DT : DominatorTree} {LI : LoopInfo}
    {L : Loop} {F : Func} {ph : Nat} (hwf : WF DT LI L F ph) {bb : Nat}
    (h : retainedB L LI bb = true) : bb ∈ DT.preorder :=
  hwf.2.2.2.2 bb (retainedB_mem_blocks h) h

/-- The bridge: under the structural preconditions, one invocation of
the driver is the flat left fold of the per-instruction step over the
schedule (the retained blocks' initial instruction sequences in
dominator preorder). -/
theorem hoistInstructions_eq_schedFold (s : Instruction → Bool)
    (DT : DominatorTree) (LI : LoopInfo) (L : Loop) (F : Func) (ph : Nat)
    (dest : Instruction) (hwf : WF DT LI L F ph)
    (hterm : getTerminator F ph = some dest) :
    hoistInstructions s DT LI L F =
      some ((sched DT LI L F).foldl (processInstr s L DT dest.id)
        ⟨F, [], false, []⟩) := by
  have hids := hwf.1
  have hdest_mem : dest ∈ blockInsts F ph := by
    unfold getTerminator at hterm
    exact List.mem_of_getLast?_eq_some hterm
  have hdest_id : dest.id ∈ (blockInsts F ph).map (fun J => J.id) :=
    List.mem_map.mpr ⟨dest, hdest_mem, rfl⟩
  unfold hoistInstructions
  simp only [hwf.2.2.1, hterm]
  rw [foldl_skip_filter]
  have hS0 : (HoistState.mk F [] false []).F = F := rfl
  rw [foldl_processBlock_flat s L DT dest.id
    (DT.preorder.filter (retainedB L LI)) ⟨F, [], false, []⟩
    (hwf.2.1.filter _)
    (by
      intro b1 h1 b2 h2 hne J hJ K hK
      rw [hS0] at hJ hK
      intro hEq
      exact blockIds_disjoint F hids b1 b2 hne J.id
        (List.mem_map.mpr ⟨J, hJ, rfl⟩)
        (List.mem_map.mpr ⟨K, hK, hEq ▸ rfl⟩))
    (by
      intro b hb J hJ
      rw [hS0] at hJ
      have hbr : retainedB L LI b = true := (List.mem_filter.mp hb).2
      have hbne : ph ≠ b := by
        intro hEq
        exact hwf.2.2.2.1 (hEq ▸ retainedB_mem_blocks hbr)
      intro hEq
      exact blockIds_disjoint F hids ph b hbne dest.id hdest_id
        (List.mem_map.mpr ⟨J, hJ, hEq ▸ rfl⟩))]
  rfl

/-- Shape of any successful invocation under the preconditions. -/
theorem hoist_some_shape (s : Instruction → Bool) (DT : DominatorTree)
    (LI : LoopInfo) (L : Loop) (F : Func) (ph : Nat) (S : HoistState)
    (hwf : WF DT LI L F ph) (h : hoistInstructions s DT LI L F = some S) :
    ∃ dest, getTerminator F ph = some dest ∧
      S = (sched DT LI L F).foldl (processInstr s L DT dest.id)
        ⟨F, [], false, []⟩ := by
  obtain ⟨ph', dest, hph', hterm, hS⟩ :=
    hoistInstructions_fold s DT LI L F S h
  have hEq : ph' = ph := by
    rw [hwf.2.2.1] at hph'
    exact (Option.some.inj hph').symm
  have hterm' : getTerminator F ph = some dest := by
    rw [← hEq]
    exact hterm
  refine ⟨dest, hterm', ?_⟩
  have hb := hoistInstructions_eq_schedFold s DT LI L F ph dest hwf hterm'
  rw [h] at hb
  exact Option.some.inj hb

/-! ### The examined trace -/

theorem foldl_processInstr_examined (s : Instruction → Bool) (L : Loop)
    (DT : DominatorTree) (d : Nat) :
    ∀ (l : List Instruction) (S : HoistState),
      (l.foldl (processInstr s L DT d) S).examined =
        S.examined ++ l.map (fun I => I.id) := by
  intro l
  induction l with
  | nil => intro S; simp
  | cons I rest ih =>
    intro S
    rw [List.foldl_cons, ih]
    unfold processInstr
    split <;> simp

theorem foldl_processInstr_hoisted_mem (s : Instruction → Bool) (L : Loop)
    (DT : DominatorTree) (d : Nat) :
    ∀ (l : List Instruction) (S : HoistState) (J : Instruction),
      J ∈ (l.foldl (processInstr s L DT d) S).hoisted →
        J ∈ S.hoisted ∨ J ∈ l := by
  intro l
  induction l with
  | nil => intro S J hJ; exact Or.inl hJ
  | cons I rest ih =>
    intro S J hJ
    rw [List.foldl_cons] at hJ
    rcases ih (processInstr s L DT d S I) J hJ with hJ | hJ
    · unfold processInstr at hJ
      split at hJ
      · dsimp only at hJ
        rcases List.mem_append.mp hJ with hJ | hJ
        · exact Or.inl hJ
        · exact Or.inr (List.mem_cons.mpr (Or.inl (List.mem_singleton.mp hJ)))
      · exact Or.inl hJ
    · exact Or.inr (List.mem_cons_of_mem _ hJ)

/-! ### Schedule identifiers -/

theorem sched_ids_nodup (DT : DominatorTree) (LI : LoopInfo) (L : Loop)
    (F : Func) (ph : Nat) (hwf : WF DT LI L F ph) :
    ((sched DT LI L F).map (fun I => I.id)).Nodup := by
  unfold sched
  rw [List.map_flatMap]
  refine List.nodup_flatMap.mpr ⟨?_, ?_⟩
  · intro bb _
    exact blockIds_nodup F hwf.1 bb
  · refine List.Pairwise.imp ?_ (hwf.2.1.filter _)
    intro a b hab
    intro j hja hjb
    exact blockIds_disjoint F hwf.1 a b hab j hja hjb

theorem mem_sched (DT : DominatorTree) (LI : LoopInfo) (L : Loop)
    (F : Func) (ph : Nat) (hwf : WF DT LI L F ph) (bb : Nat)
    (hbb : retainedB L LI bb = true) (I : Instruction)
    (hI : I ∈ blockInsts F bb) : I ∈ sched DT LI L F := by
  unfold sched
  exact List.mem_flatMap.mpr
    ⟨bb, List.mem_filter.mpr ⟨hwf.retained_mem_preorder hbb, hbb⟩, hI⟩

/-! ### C5 -/

/-- C5: during one invocation the driver examines the instructions of the
retained blocks exactly once each — the examined trace is precisely the
schedule (the retained blocks' instruction sequences at entry, in
dominator preorder), without repetition, and each instruction of each
retained block has exactly one occurrence in it.  Relocating the current
instruction to the preheader never skips or re-visits a sibling. -/
theorem every_retained_instruction_examined_once (s : Instruction → Bool)
    (DT : DominatorTree) (LI : LoopInfo) (L : Loop) (F : Func) (ph : Nat)
    (S : HoistState) (hwf : WF DT LI L F ph)
    (h : hoistInstructions s DT LI L F = some S) :
    S.examined = (sched DT LI L F).map (fun I => I.id) ∧
    S.examined.Nodup ∧
    ∀ bb, retainedB L LI bb = true → ∀ I ∈ blockInsts F bb,
      S.examined.count I.id = 1 := by
  obtain ⟨dest, hterm, rfl⟩ := hoist_some_shape s DT LI L F ph S hwf h
  have hex := foldl_processInstr_examined s L DT dest.id
    (sched DT LI L F) ⟨F, [], false, []⟩
  rw [List.nil_append] at hex
  refine ⟨hex, ?_, ?_⟩
  · rw [hex]
    exact sched_ids_nodup DT LI L F ph hwf
  · intro bb hbb I hI
    rw [hex]
    exact List.count_eq_one_of_mem (sched_ids_nodup DT LI L F ph hwf)
      (List.mem_map.mpr ⟨I, mem_sched DT LI L F ph hwf bb hbb I hI, rfl⟩)

/-- Witness for C5 on the dependent-pair program. -/
theorem every_retained_instruction_examined_once_witness :
    exS6.examined = (sched exDT6 exLI6 exL6 exF6).map (fun I => I.id) ∧
    exS6.examined.Nodup ∧
    ∀ bb, retainedB exL6 exLI6 bb = true → ∀ I ∈ blockInsts exF6 bb,
      exS6.examined.count I.id = 1 :=
  every_retained_instruction_examined_once oracleTrue exDT6 exLI6 exL6
    exF6 0 exS6 (by unfold WF; decide) (by decide)

/-! ### Multiset preservation helpers -/

theorem allInstrs_cons (B : BasicBlock) (rest : Func) :
    allInstrs (B :: rest) = B.insts ++ allInstrs rest := by
  simp [allInstrs]

theorem allInstrs_removeInstr (i : Nat) :
    ∀ F : Func, allInstrs (removeInstr i F) =
      (allInstrs F).filter (fun J => J.id != i) := by
  intro F
  induction F with
  | nil => rfl
  | cons B rest ih =>
    show allInstrs (⟨B.name, B.insts.filter (fun J => J.id != i)⟩ ::
      removeInstr i rest) = _
    rw [allInstrs_cons, allInstrs_cons, ih, List.filter_append]

theorem map_id_filter (i : Nat) (l : List Instruction) :
    (l.filter (fun J => J.id != i)).map (fun J => J.id) =
      (l.map (fun J => J.id)).filter (fun j => j != i) := by
  induction l with
  | nil => rfl
  | cons J rest ih =>
    cases h : (J.id != i) with
    | false => simp [List.filter_cons, List.map_cons, h, ih]
    | true => simp [List.filter_cons, List.map_cons, h, ih]

theorem allIds_removeInstr (i : Nat) (F : Func) :
    allIds (removeInstr i F) = (allIds F).filter (fun j => j != i) := by
  rw [allIds_eq_map_allInstrs, allIds_eq_map_allInstrs,
    allInstrs_removeInstr]
  exact map_id_filter i (allInstrs F)

theorem insertBeforeInstr_id (d : Nat) (I : Instruction) :
    ∀ F : Func, (∀ J ∈ allInstrs F, J.id ≠ d) →
      insertBeforeInstr d I F = F := by
  intro F
  induction F with
  | nil => intro _; rfl
  | cons B rest ih =>
    intro h
    have hB : insertBefore d I B.insts = B.insts :=
      insertBefore_not_mem d I B.insts (fun J hJ => h J
        (by rw [allInstrs_cons]; exact List.mem_append.mpr (Or.inl hJ)))
    have hrest : insertBeforeInstr d I rest = rest :=
      ih (fun J hJ => h J
        (by rw [allInstrs_cons]; exact List.mem_append.mpr (Or.inr hJ)))
    show (⟨B.name, insertBefore d I B.insts⟩ : BasicBlock) ::
      insertBeforeInstr d I rest = B :: rest
    rw [hB, hrest]

theorem allInstrs_insertBeforeInstr_perm (d : Nat) (I : Instruction) :
    ∀ F : Func, (allIds F).Nodup → d ∈ allIds F →
      (allInstrs (insertBeforeInstr d I F)).Perm (I :: allInstrs F) := by
  intro F
  induction F with
  | nil => intro _ h; exact absurd h (List.not_mem_nil d)
  | cons B rest ih =>
    intro hnd hd
    rw [allIds_cons] at hnd hd
    have hdisj := List.disjoint_of_nodup_append hnd
    show (allInstrs (⟨B.name, insertBefore d I B.insts⟩ ::
      insertBeforeInstr d I rest)).Perm _
    rw [allInstrs_cons]
    rcases List.mem_append.mp hd with hdB | hdR
    · have hrest_eq : insertBeforeInstr d I rest = rest :=
        insertBeforeInstr_id d I rest (fun J hJ hEq => hdisj hdB
          (by
            rw [← hEq, allIds_eq_map_allInstrs]
            exact List.mem_map.mpr ⟨J, hJ, rfl⟩))
      rw [hrest_eq]
      have hperm := insertBefore_perm d I B.insts
      rw [if_pos (by
        obtain ⟨J, hJ, hJd⟩ := List.mem_map.mp hdB
        exact ⟨J, hJ, hJd⟩)] at hperm
      rw [allInstrs_cons, ← List.cons_append]
      exact hperm.append_right _
    · have hB_eq : insertBefore d I B.insts = B.insts :=
        insertBefore_not_mem d I B.insts (fun J hJ hEq => hdisj
          (List.mem_map.mpr ⟨J, hJ, rfl⟩) (hEq ▸ hdR))
      rw [hB_eq]
      have hrest := ih hnd.of_append_right hdR
      refine (List.Perm.append_left B.insts hrest).trans ?_
      rw [allInstrs_cons]
      exact List.perm_middle

theorem perm_filter_of_mem (l : List Instruction) (J : Instruction)
    (hJ : J ∈ l) (hnd : (l.map (fun K => K.id)).Nodup) :
    l.Perm (J :: l.filter (fun K => K.id != J.id)) := by
  obtain ⟨a, b, rfl⟩ := List.append_of_mem hJ
  rw [List.map_append, List.map_cons] at hnd
  have hdisj := List.disjoint_of_nodup_append hnd
  have hb := hnd.of_append_right
  have hJa : ∀ K ∈ a, K.id ≠ J.id := fun K hK hEq =>
    hdisj (List.mem_map.mpr ⟨K, hK, rfl⟩)
      (by rw [hEq]; exact List.mem_cons_self _ _)
  have hJb : ∀ K ∈ b, K.id ≠ J.id := fun K hK hEq =>
    (List.nodup_cons.mp hb).1
      (by rw [← hEq]; exact List.mem_map.mpr ⟨K, hK, rfl⟩)
  rw [List.filter_append, List.filter_cons]
  have hself : (J.id != J.id) = false := by simp
  rw [hself, if_neg Bool.false_ne_true]
  rw [List.filter_eq_self.mpr (fun K hK => bne_iff_ne.mpr (hJa K hK))]
  rw [List.filter_eq_self.mpr (fun K hK => bne_iff_ne.mpr (hJb K hK))]
  exact List.perm_middle

/-! ### Eligibility helpers -/

theorem hoistCheck_eq (s : Instruction → Bool) (L : Loop)
    (DT : DominatorTree) (F : Func) (I : Instruction) :
    hoistCheck s L DT F I =
      ((checkInstructionType I && checkInstructionOperands L F I) && s I) := by
  unfold hoistCheck isLoopInvariant
  rw [safeToHoist_eq_oracle]

theorem checkOperands_false_elim {L : Loop} {F : Func} {I : Instruction}
    (h : checkInstructionOperands L F I = false) :
    ∃ j, Value.instr j ∈ I.operands ∧ instrInLoop L F j = true := by
  unfold checkInstructionOperands at h
  rw [List.all_eq_false] at h
  obtain ⟨V, hV, hVf⟩ := h
  cases V with
  | const n => exact absurd (by simp [isConstant]) hVf
  | external n =>
    exact absurd (by simp [isConstant, loopIsLoopInvariant]) hVf
  | instr j =>
    refine ⟨j, hV, ?_⟩
    cases hin : instrInLoop L F j with
    | true => rfl
    | false =>
      exact absurd (by simp [isConstant, loopIsLoopInvariant, hin]) hVf

theorem checkOperands_false_intro {L : Loop} {F : Func} {I : Instruction}
    {j : Nat} (hmem : Value.instr j ∈ I.operands)
    (hin : instrInLoop L F j = true) :
    checkInstructionOperands L F I = false := by
  unfold checkInstructionOperands
  rw [List.all_eq_false]
  exact ⟨Value.instr j, hmem,
    by simp [isConstant, loopIsLoopInvariant, hin]⟩

/-! ### Definition-before-use ordering of the schedule -/

/-- Decidable form of the SSA dominance discipline restricted to what the
pass consults: no eligible-typed instruction of the schedule has an
instruction-result operand whose defining instruction occurs at its own
position or later in the schedule.  On valid SSA input this always
holds, because a definition dominates its (non-phi) uses and the
schedule lists blocks in dominator preorder, each in program order. -/
def noLaterDefs : List Instruction → Bool
  | [] => true
  | I :: rest =>
      ((!(checkInstructionType I)) ||
        I.operands.all (fun V =>
          match V with
          | .instr j => !(((I :: rest).map (fun K => K.id)).contains j)
          | _ => true)) &&
      noLaterDefs rest

theorem noLaterDefs_cons (I : Instruction) (rest : List Instruction) :
    noLaterDefs (I :: rest) =
      (((!(checkInstructionType I)) ||
        I.operands.all (fun V =>
          match V with
          | .instr j => !(((I :: rest).map (fun K => K.id)).contains j)
          | _ => true)) &&
      noLaterDefs rest) := rfl

theorem noLaterDefs_split :
    ∀ (a : List Instruction) (I : Instruction) (b : List Instruction),
      noLaterDefs (a ++ I :: b) = true →
      checkInstructionType I = true →
      ∀ j, Value.instr j ∈ I.operands →
        j ∉ (I :: b).map (fun K => K.id) := by
  intro a
  induction a with
  | nil =>
    intro I b h hty j hj hmem
    rw [List.nil_append, noLaterDefs_cons] at h
    simp only [Bool.and_eq_true] at h
    have h1 := h.1
    rw [hty] at h1
    simp only [Bool.not_true, Bool.false_or] at h1
    have hV := List.all_eq_true.mp h1 (Value.instr j) hj
    dsimp only at hV
    rw [natContains_iff.mpr hmem] at hV
    exact absurd hV (by simp)
  | cons A a2 ih =>
    intro I b h hty j hj
    rw [List.cons_append, noLaterDefs_cons] at h
    simp only [Bool.and_eq_true] at h
    exact ih I b h.2 hty j hj

/-! ### Schedule identifiers avoid non-retained blocks -/

theorem sched_ids_not_in_block (DT : DominatorTree) (LI : LoopInfo)
    (L : Loop) (F : Func) (ph : Nat) (hwf : WF DT LI L F ph) (bb : Nat)
    (hbb : retainedB L LI bb = false) (j : Nat)
    (hj : j ∈ (sched DT LI L F).map (fun I => I.id)) :
    j ∉ (blockInsts F bb).map (fun I => I.id) := by
  unfold sched at hj
  rw [List.map_flatMap] at hj
  obtain ⟨bb2, hbb2, hj2⟩ := List.mem_flatMap.mp hj
  have hr : retainedB L LI bb2 = true := (List.mem_filter.mp hbb2).2
  have hne : bb2 ≠ bb := by
    intro hEq
    rw [hEq, hbb] at hr
    exact Bool.false_ne_true hr
  exact blockIds_disjoint F hwf.1 bb2 bb hne j hj2

theorem sched_elim {DT : DominatorTree} {LI : LoopInfo} {L : Loop}
    {F : Func} {I : Instruction} (h : I ∈ sched DT LI L F) :
    ∃ bb, retainedB L LI bb = true ∧ I ∈ blockInsts F bb := by
  unfold sched at h
  obtain ⟨bb, hbb, hI⟩ := List.mem_flatMap.mp h
  exact ⟨bb, (List.mem_filter.mp hbb).2, hI⟩

/-- Truth of: `J` has not been relocated: its identifier differs from every
hoisted instruction's identifier. -/
def notHoistedB (hs : List Instruction) (J : Instruction) : Bool :=
  hs.all (fun K => K.id != J.id)

/-- The running invariant of one driver invocation, relative to the
initial graph `F0`, the preheader `ph` with initial contents
`phPre ++ [dest]`, and the instructions `l2` of the schedule not yet
examined: hoisted instructions come from the schedule; each retained
block holds its initial instructions minus the hoisted ones, in order;
the preheader holds its initial contents with the hoisted instructions
inserted, in order, immediately before its terminator; all other blocks
are untouched; the instruction multiset is preserved; not-yet-examined
instructions have not been hoisted; and every instruction still in a
retained block is either not yet examined or fails the hoisting check
in the current graph. -/
def DriverInv (s : Instruction → Bool) (L : Loop) (DT : DominatorTree)
    (LI : LoopInfo) (F0 : Func) (ph : Nat) (phPre : List Instruction)
    (dest : Instruction) (l2 : List Instruction) (S : HoistState) : Prop :=
  (∀ K ∈ S.hoisted, K.id ∈ (sched DT LI L F0).map (fun I => I.id)) ∧
  (∀ bb, retainedB L LI bb = true →
    blockInsts S.F bb = (blockInsts F0 bb).filter (notHoistedB S.hoisted)) ∧
  blockInsts S.F ph = phPre ++ S.hoisted ++ [dest] ∧
  (∀ bb, retainedB L LI bb = false → bb ≠ ph →
    blockInsts S.F bb = blockInsts F0 bb) ∧
  (allInstrs S.F).Perm (allInstrs F0) ∧
  (∀ I2 ∈ l2, notHoistedB S.hoisted I2 = true) ∧
  (noLaterDefs (sched DT LI L F0) = true →
    ∀ bb, retainedB L LI bb = true → ∀ I2 ∈ blockInsts S.F bb,
      I2 ∈ l2 ∨ hoistCheck s L DT S.F I2 = false)

theorem DriverInv_init (s : Instruction → Bool) (L : Loop)
    (DT : DominatorTree) (LI : LoopInfo) (F0 : Func) (ph : Nat)
    (phPre : List Instruction) (dest : Instruction)
    (hwf : WF DT LI L F0 ph)
    (hphC : blockInsts F0 ph = phPre ++ [dest]) :
    DriverInv s L DT LI F0 ph phPre dest (sched DT LI L F0)
      ⟨F0, [], false, []⟩ := by
  unfold DriverInv
  refine ⟨?_, ?_, ?_, ?_, ?_, ?_, ?_⟩
  · intro K hK
    exact absurd hK (List.not_mem_nil K)
  · intro bb _
    exact (List.filter_eq_self.mpr (fun a _ => rfl)).symm
  · show blockInsts F0 ph = phPre ++ [] ++ [dest]
    rw [List.append_nil]
    exact hphC
  · intro bb _ _
    rfl
  · exact List.Perm.refl _
  · intro I2 _
    rfl
  · intro _ bb hbb I2 hI2
    exact Or.inl (mem_sched DT LI L F0 ph hwf bb hbb I2 hI2)

/-- One examination step preserves the running invariant. -/
theorem DriverInv_step (s : Instruction → Bool) (L : Loop)
    (DT : DominatorTree) (LI : LoopInfo) (F0 : Func) (ph : Nat)
    (phPre : List Instruction) (dest : Instruction)
    (hwf : WF DT LI L F0 ph)
    (hphC : blockInsts F0 ph = phPre ++ [dest])
    (l1 l2 : List Instruction) (I : Instruction)
    (hsplit : sched DT LI L F0 = l1 ++ I :: l2)
    (S : HoistState)
    (hinv : DriverInv s L DT LI F0 ph phPre dest (I :: l2) S) :
    DriverInv s L DT LI F0 ph phPre dest l2
      (processInstr s L DT dest.id S I) := by
  obtain ⟨hA, hB, hC, hD, hPerm, hH, hG⟩ := hinv
  unfold DriverInv
  have hschedNodup := sched_ids_nodup DT LI L F0 ph hwf
  have hIsched : I ∈ sched DT LI L F0 := by
    rw [hsplit]
    exact List.mem_append.mpr (Or.inr (List.mem_cons_self I l2))
  have hIid : I.id ∈ (sched DT LI L F0).map (fun K => K.id) :=
    List.mem_map.mpr ⟨I, hIsched, rfl⟩
  have hphIds : dest.id ∈ (blockInsts F0 ph).map (fun K => K.id) := by
    rw [hphC]
    simp
  have hInotph : I.id ∉ (blockInsts F0 ph).map (fun K => K.id) :=
    sched_ids_not_in_block DT LI L F0 ph hwf ph hwf.retainedB_ph I.id hIid
  have hIne_dest : I.id ≠ dest.id := by
    intro hEq
    apply hInotph
    rw [hEq]
    exact hphIds
  have hInot_phPre : ∀ J ∈ phPre, J.id ≠ I.id := by
    intro J hJ hEq
    apply hInotph
    rw [hphC, ← hEq]
    exact List.mem_map.mpr ⟨J, List.mem_append.mpr (Or.inl hJ), rfl⟩
  have hIhoisted : ∀ K ∈ S.hoisted, K.id ≠ I.id := by
    have hh := hH I (List.mem_cons_self I l2)
    unfold notHoistedB at hh
    rw [List.all_eq_true] at hh
    intro K hK
    exact bne_iff_ne.mp (hh K hK)
  have hIl2 : ∀ I2 ∈ l2, I2.id ≠ I.id := by
    have hnd2 : ((l1 ++ I :: l2).map (fun K => K.id)).Nodup := by
      rw [← hsplit]
      exact hschedNodup
    rw [List.map_append, List.map_cons] at hnd2
    have h3 := (List.nodup_cons.mp hnd2.of_append_right).1
    intro I2 hI2 hEq
    exact h3 (List.mem_map.mpr ⟨I2, hI2, hEq⟩)
  have hph_ne : ∀ bb, retainedB L LI bb = true → ph ≠ bb := by
    intro bb hbb hEq
    exact hwf.2.2.2.1 (hEq ▸ retainedB_mem_blocks hbb)
  have hhsched : ∀ K ∈ S.hoisted,
      K.id ∉ (blockInsts F0 ph).map (fun J => J.id) := by
    intro K hK
    exact sched_ids_not_in_block DT LI L F0 ph hwf ph hwf.retainedB_ph
      K.id (hA K hK)
  cases hc : hoistCheck s L DT S.F I with
  | false =>
    have hstate : processInstr s L DT dest.id S I =
        ⟨S.F, S.hoisted, S.modified, S.examined ++ [I.id]⟩ := by
      unfold processInstr
      rw [hc]
      rfl
    rw [hstate]
    refine ⟨hA, hB, hC, hD, hPerm, ?_, ?_⟩
    · intro I2 hI2
      exact hH I2 (List.mem_cons_of_mem _ hI2)
    · intro hssa bb hbb I2 hI2
      by_cases hI2l2 : I2 ∈ l2
      · exact Or.inl hI2l2
      rcases hG hssa bb hbb I2 hI2 with hmem | hfalse
      · rcases List.mem_cons.mp hmem with hEq | hmem2
        · right
          rw [hEq]
          exact hc
        · exact absurd hmem2 hI2l2
      · exact Or.inr hfalse
  | true =>
    have hstate : processInstr s L DT dest.id S I =
        ⟨moveBefore S.F I dest.id, S.hoisted ++ [I], true,
          S.examined ++ [I.id]⟩ := by
      unfold processInstr
      rw [hc]
      rfl
    rw [hstate]
    have hB' : ∀ bb, retainedB L LI bb = true →
        blockInsts (moveBefore S.F I dest.id) bb =
          (blockInsts F0 bb).filter (notHoistedB (S.hoisted ++ [I])) := by
      intro bb hbb
      rw [blockInsts_moveBefore, hB bb hbb, List.filter_filter]
      rw [insertBefore_not_mem dest.id I _ (fun J hJ hEq =>
        blockIds_disjoint F0 hwf.1 ph bb (hph_ne bb hbb) dest.id hphIds
          (by
            rw [← hEq]
            exact List.mem_map.mpr ⟨J, (List.mem_filter.mp hJ).1, rfl⟩))]
      apply List.filter_congr
      intro J hJ0
      unfold notHoistedB
      rw [List.all_append]
      simp only [List.all_cons, List.all_nil, Bool.and_true]
      rw [bne_comm_nat J.id I.id]
      exact Bool.and_comm _ _
    have hC' : blockInsts (moveBefore S.F I dest.id) ph =
        phPre ++ (S.hoisted ++ [I]) ++ [dest] := by
      rw [blockInsts_moveBefore, hC]
      have hfil : (phPre ++ S.hoisted ++ [dest]).filter
          (fun J => J.id != I.id) = phPre ++ S.hoisted ++ [dest] := by
        apply List.filter_eq_self.mpr
        intro J hJ
        apply bne_iff_ne.mpr
        rcases List.mem_append.mp hJ with hJ1 | hJ2
        · rcases List.mem_append.mp hJ1 with hJa | hJb
          · exact hInot_phPre J hJa
          · exact hIhoisted J hJb
        · rw [List.mem_singleton.mp hJ2]
          exact fun hEq => hIne_dest hEq.symm
      rw [hfil]
      have hpre_no : ∀ J ∈ phPre ++ S.hoisted, J.id ≠ dest.id := by
        intro J hJ hEq
        rcases List.mem_append.mp hJ with hJa | hJb
        · have hnd := blockIds_nodup F0 hwf.1 ph
          rw [hphC, List.map_append] at hnd
          have hdisj := List.disjoint_of_nodup_append hnd
          exact hdisj (List.mem_map.mpr ⟨J, hJa, rfl⟩)
            (by rw [hEq]; simp)
        · exact hhsched J hJb (hEq ▸ hphIds)
      have hins : insertBefore dest.id I ((phPre ++ S.hoisted) ++ [dest]) =
          (phPre ++ S.hoisted) ++ [I, dest] := by
        rw [insertBefore_append_left dest.id I (phPre ++ S.hoisted) [dest]
          hpre_no]
        rw [insertBefore_cons_eq dest.id I dest [] rfl]
      rw [hins]
      simp [List.append_assoc]
    have hD' : ∀ bb, retainedB L LI bb = false → bb ≠ ph →
        blockInsts (moveBefore S.F I dest.id) bb = blockInsts F0 bb := by
      intro bb hbb hne
      rw [blockInsts_moveBefore, hD bb hbb hne]
      have hIbb : I.id ∉ (blockInsts F0 bb).map (fun K => K.id) :=
        sched_ids_not_in_block DT LI L F0 ph hwf bb hbb I.id hIid
      rw [List.filter_eq_self.mpr (fun J hJ => bne_iff_ne.mpr
        (fun hEq => hIbb (List.mem_map.mpr ⟨J, hJ, hEq⟩)))]
      apply insertBefore_not_mem
      intro J hJ hEq
      exact blockIds_disjoint F0 hwf.1 ph bb (fun hEq2 => hne hEq2.symm)
        dest.id hphIds (by rw [← hEq]; exact List.mem_map.mpr ⟨J, hJ, rfl⟩)
    have hnodS : (allIds S.F).Nodup := by
      rw [allIds_eq_map_allInstrs]
      exact ((hPerm.map (fun J => J.id)).nodup_iff).mpr
        (by rw [← allIds_eq_map_allInstrs]; exact hwf.1)
    have hIinS : I ∈ allInstrs S.F := by
      obtain ⟨bb, hbb, hIF0⟩ := sched_elim hIsched
      have hin : I ∈ blockInsts S.F bb := by
        rw [hB bb hbb]
        exact List.mem_filter.mpr ⟨hIF0, hH I (List.mem_cons_self I l2)⟩
      exact mem_allInstrs_of_mem_blockInsts hin
    have hdestG : dest.id ∈ allIds (removeInstr I.id S.F) := by
      rw [allIds_removeInstr]
      apply List.mem_filter.mpr
      constructor
      · have hdm : dest ∈ blockInsts S.F ph := by
          rw [hC]
          simp
        rw [allIds_eq_map_allInstrs]
        exact List.mem_map.mpr
          ⟨dest, mem_allInstrs_of_mem_blockInsts hdm, rfl⟩
      · exact bne_iff_ne.mpr (fun hEq => hIne_dest hEq.symm)
    have hnodG : (allIds (removeInstr I.id S.F)).Nodup := by
      rw [allIds_removeInstr]
      exact hnodS.filter _
    have hPerm' : (allInstrs (moveBefore S.F I dest.id)).Perm
        (allInstrs F0) := by
      unfold moveBefore
      refine (allInstrs_insertBeforeInstr_perm dest.id I _ hnodG
        hdestG).trans ?_
      rw [allInstrs_removeInstr]
      exact ((perm_filter_of_mem (allInstrs S.F) I hIinS
        (by rw [← allIds_eq_map_allInstrs]; exact hnodS)).symm).trans hPerm
    have hH' : ∀ I2 ∈ l2, notHoistedB (S.hoisted ++ [I]) I2 = true := by
      intro I2 hI2
      unfold notHoistedB
      rw [List.all_append]
      simp only [Bool.and_eq_true]
      refine ⟨hH I2 (List.mem_cons_of_mem _ hI2), ?_⟩
      simp only [List.all_cons, List.all_nil, Bool.and_true]
      exact bne_iff_ne.mpr (fun hEq => hIl2 I2 hI2 hEq.symm)
    have hG' : noLaterDefs (sched DT LI L F0) = true →
        ∀ bb, retainedB L LI bb = true →
        ∀ I2 ∈ blockInsts (moveBefore S.F I dest.id) bb,
          I2 ∈ l2 ∨
            hoistCheck s L DT (moveBefore S.F I dest.id) I2 = false := by
      intro hssa bb hbb I2 hI2
      by_cases hI2l2 : I2 ∈ l2
      · exact Or.inl hI2l2
      right
      rw [hB' bb hbb] at hI2
      have hI2F0 : I2 ∈ blockInsts F0 bb := (List.mem_filter.mp hI2).1
      have hI2nh : notHoistedB (S.hoisted ++ [I]) I2 = true :=
        (List.mem_filter.mp hI2).2
      have hI2ne : I2 ≠ I := by
        intro hEq
        unfold notHoistedB at hI2nh
        rw [List.all_eq_true] at hI2nh
        have hcur := hI2nh I
          (List.mem_append.mpr (Or.inr (List.mem_cons_self I [])))
        rw [hEq] at hcur
        exact (bne_iff_ne.mp hcur) rfl
      have hI2old : I2 ∈ blockInsts S.F bb := by
        rw [hB bb hbb]
        refine List.mem_filter.mpr ⟨hI2F0, ?_⟩
        unfold notHoistedB at hI2nh ⊢
        rw [List.all_append] at hI2nh
        simp only [Bool.and_eq_true] at hI2nh
        exact hI2nh.1
      have hfalse : hoistCheck s L DT S.F I2 = false := by
        rcases hG hssa bb hbb I2 hI2old with hmem | hf
        · rcases List.mem_cons.mp hmem with hEq | hmem2
          · exact absurd hEq hI2ne
          · exact absurd hmem2 hI2l2
        · exact hf
      rw [hoistCheck_eq] at hfalse ⊢
      cases hty : checkInstructionType I2 with
      | false => simp
      | true =>
        cases hsI2 : s I2 with
        | false => simp
        | true =>
          rw [hty, hsI2] at hfalse
          simp only [Bool.true_and, Bool.and_true] at hfalse
          obtain ⟨j, hjmem, hjin⟩ := checkOperands_false_elim hfalse
          have hI2sched : I2 ∈ sched DT LI L F0 :=
            mem_sched DT LI L F0 ph hwf bb hbb I2 hI2F0
          have hI2l1 : I2 ∈ l1 := by
            have hmem := hI2sched
            rw [hsplit] at hmem
            rcases List.mem_append.mp hmem with h | h
            · exact h
            · rcases List.mem_cons.mp h with hEq | h2
              · exact absurd hEq hI2ne
              · exact absurd h2 hI2l2
          obtain ⟨a, b, hab⟩ := List.append_of_mem hI2l1
          have hsplit2 : sched DT LI L F0 = a ++ I2 :: (b ++ I :: l2) := by
            rw [hsplit, hab]
            simp [List.append_assoc]
          have hjnot := noLaterDefs_split a I2 (b ++ I :: l2)
            (by rw [← hsplit2]; exact hssa) hty j hjmem
          have hjneI : j ≠ I.id := by
            intro hEq
            apply hjnot
            rw [hEq]
            refine List.mem_map.mpr ⟨I, ?_, rfl⟩
            exact List.mem_cons_of_mem _
              (List.mem_append.mpr (Or.inr (List.mem_cons_self I l2)))
          have hfreeze : instrInLoop L (moveBefore S.F I dest.id) j =
              true := by
            rw [instrInLoop_moveBefore L S.F I dest.id j hjneI]
            exact hjin
          rw [checkOperands_false_intro hjmem hfreeze]
          simp
    exact ⟨(fun K hK => by
        rcases List.mem_append.mp hK with hK | hK
        · exact hA K hK
        · rw [List.mem_singleton.mp hK]
          exact hIid),
      hB', hC', hD', hPerm', hH', hG'⟩

/-- Transport of the running invariant to the end of the fold. -/
theorem DriverInv_transport (s : Instruction → Bool) (L : Loop)
    (DT : DominatorTree) (LI : LoopInfo) (F0 : Func) (ph : Nat)
    (phPre : List Instruction) (dest : Instruction)
    (hwf : WF DT LI L F0 ph)
    (hphC : blockInsts F0 ph = phPre ++ [dest]) :
    ∀ (l2 l1 : List Instruction) (S : HoistState),
      sched DT LI L F0 = l1 ++ l2 →
      DriverInv s L DT LI F0 ph phPre dest l2 S →
      DriverInv s L DT LI F0 ph phPre dest []
        (l2.foldl (processInstr s L DT dest.id) S) := by
  intro l2
  induction l2 with
  | nil =>
    intro l1 S _ hinv
    exact hinv
  | cons I l2' ih =>
    intro l1 S hsplit hinv
    rw [List.foldl_cons]
    refine ih (l1 ++ [I]) _ ?_ ?_
    · rw [hsplit]
      simp
    · exact DriverInv_step s L DT LI F0 ph phPre dest hwf hphC l1 l2' I
        hsplit S hinv

/-- The invariant at the end of one full invocation. -/
theorem DriverInv_final (s : Instruction → Bool) (L : Loop)
    (DT : DominatorTree) (LI : LoopInfo) (F0 : Func) (ph : Nat)
    (phPre : List Instruction) (dest : Instruction)
    (hwf : WF DT LI L F0 ph)
    (hphC : blockInsts F0 ph = phPre ++ [dest]) :
    DriverInv s L DT LI F0 ph phPre dest []
      ((sched DT LI L F0).foldl (processInstr s L DT dest.id)
        ⟨F0, [], false, []⟩) :=
  DriverInv_transport s L DT LI F0 ph phPre dest hwf hphC
    (sched DT LI L F0) [] ⟨F0, [], false, []⟩ (List.nil_append _).symm
    (DriverInv_init s L DT LI F0 ph phPre dest hwf hphC)

/-- A fold over instructions none of which passes the hoisting check
only extends the examined trace. -/
theorem foldl_processInstr_inert (s : Instruction → Bool) (L : Loop)
    (DT : DominatorTree) (d : Nat) :
    ∀ (l : List Instruction) (T : HoistState),
      (∀ I2 ∈ l, hoistCheck s L DT T.F I2 = false) →
      l.foldl (processInstr s L DT d) T =
        ⟨T.F, T.hoisted, T.modified,
          T.examined ++ l.map (fun I => I.id)⟩ := by
  intro l
  induction l with
  | nil =>
    intro T _
    rw [List.map_nil, List.append_nil]
    rfl
  | cons I rest ih =>
    intro T hl
    rw [List.foldl_cons]
    have hcI : hoistCheck s L DT T.F I = false :=
      hl I (List.mem_cons_self I rest)
    have hstate : processInstr s L DT d T I =
        ⟨T.F, T.hoisted, T.modified, T.examined ++ [I.id]⟩ := by
      unfold processInstr
      rw [hcI]
      rfl
    rw [hstate]
    rw [ih ⟨T.F, T.hoisted, T.modified, T.examined ++ [I.id]⟩
      (fun I2 hI2 => hl I2 (List.mem_cons_of_mem _ hI2))]
    simp

/-! ### C7 -/

/-- C7: on well-formed input whose schedule respects the SSA
definition-before-use discipline (as valid IR in dominator preorder
does), a second invocation of the driver immediately after a first one,
with no other graph changes, relocates nothing: it returns the graph
unchanged, an empty hoisted list and a false `Modified` flag. -/
theorem hoist_idempotent (s : Instruction → Bool) (DT : DominatorTree)
    (LI : LoopInfo) (L : Loop) (F : Func) (ph : Nat) (S1 : HoistState)
    (hwf : WF DT LI L F ph)
    (hssa : noLaterDefs (sched DT LI L F) = true)
    (h1 : hoistInstructions s DT LI L F = some S1) :
    ∃ S2, hoistInstructions s DT LI L S1.F = some S2 ∧
      S2.F = S1.F ∧ S2.hoisted = [] ∧ S2.modified = false := by
  obtain ⟨dest, hterm, hS1⟩ := hoist_some_shape s DT LI L F ph S1 hwf h1
  have htermL : (blockInsts F ph).getLast? = some dest := hterm
  obtain ⟨phPre, hphC⟩ := List.getLast?_eq_some_iff.mp htermL
  have hfinal := DriverInv_final s L DT LI F ph phPre dest hwf hphC
  rw [← hS1] at hfinal
  obtain ⟨fA, fB, fC, fD, fPerm, fH, fG⟩ := hfinal
  have hwf2 : WF DT LI L S1.F ph := by
    refine ⟨?_, hwf.2.1, hwf.2.2.1, hwf.2.2.2.1, hwf.2.2.2.2⟩
    rw [allIds_eq_map_allInstrs]
    exact ((fPerm.map (fun J => J.id)).nodup_iff).mpr
      (by rw [← allIds_eq_map_allInstrs]; exact hwf.1)
  have hterm2 : getTerminator S1.F ph = some dest := by
    unfold getTerminator
    rw [fC]
    exact List.getLast?_concat _
  have hbridge := hoistInstructions_eq_schedFold s DT LI L S1.F ph dest
    hwf2 hterm2
  have hsched2 : ∀ I2 ∈ sched DT LI L S1.F,
      hoistCheck s L DT S1.F I2 = false := by
    intro I2 hI2
    obtain ⟨bb, hbb, hI2b⟩ := sched_elim hI2
    rcases fG hssa bb hbb I2 hI2b with hmem | hf
    · exact absurd hmem (List.not_mem_nil I2)
    · exact hf
  have hrun := foldl_processInstr_inert s L DT dest.id
    (sched DT LI L S1.F) ⟨S1.F, [], false, []⟩ hsched2
  refine ⟨_, hbridge, ?_, ?_, ?_⟩ <;> rw [hrun]

/-- Witness for C7 on the dependent-pair program. -/
theorem hoist_idempotent_witness :
    ∃ S2, hoistInstructions oracleTrue exDT6 exLI6 exL6 exS6.F = some S2 ∧
      S2.F = exS6.F ∧ S2.hoisted = [] ∧ S2.modified = false :=
  hoist_idempotent oracleTrue exDT6 exLI6 exL6 exF6 0 exS6
    (by unfold WF; decide) (by decide) (by decide)

/-! ### C9 -/

theorem foldl_processInstr_names (s : Instruction → Bool) (L : Loop)
    (DT : DominatorTree) (d : Nat) :
    ∀ (l : List Instruction) (S : HoistState),
      ((l.foldl (processInstr s L DT d) S).F).map (fun B => B.name) =
        S.F.map (fun B => B.name) := by
  intro l
  induction l with
  | nil => intro S; rfl
  | cons I rest ih =>
    intro S
    rw [List.foldl_cons, ih]
    unfold processInstr
    split
    · dsimp only
      exact names_moveBefore S.F I d
    · rfl

/-- A control-transfer instruction is never of eligible opcode
category, so it is never hoisted and every block keeps its
terminator. -/
theorem terminator_not_eligible (J : Instruction)
    (h : J.isTerminator = true) : checkInstructionType J = false := by
  unfold Instruction.isTerminator at h
  unfold checkInstructionType Instruction.isBinaryOp Instruction.isShift
    isSelectInst Instruction.isCast isGetElementPtrInst
  cases hop : J.opcode <;> simp_all

/-- C9: one invocation leaves the set of blocks (and their order, hence
the control-flow edges: every terminator stays in its block, in order)
unchanged; it only re-distributes the unchanged instruction records —
operands included — between blocks: the final instructions are a
permutation of the initial ones, each hoisted instruction is one of the
original records, the preheader consists of its original contents, in
order, with exactly the hoisted instructions inserted immediately before
its terminator, retained blocks merely lose the hoisted instructions,
and every other block is untouched. -/
theorem hoist_frame_properties (s : Instruction → Bool)
    (DT : DominatorTree) (LI : LoopInfo) (L : Loop) (F : Func) (ph : Nat)
    (S : HoistState) (hwf : WF DT LI L F ph)
    (h : hoistInstructions s DT LI L F = some S) :
    S.F.map (fun B => B.name) = F.map (fun B => B.name) ∧
    (allInstrs S.F).Perm (allInstrs F) ∧
    (∀ J ∈ S.hoisted, J ∈ allInstrs F) ∧
    (∃ phPre dest, blockInsts F ph = phPre ++ [dest] ∧
      blockInsts S.F ph = phPre ++ S.hoisted ++ [dest]) ∧
    (∀ bb, retainedB L LI bb = true →
      blockInsts S.F bb = (blockInsts F bb).filter (notHoistedB S.hoisted)) ∧
    (∀ bb, retainedB L LI bb = false → bb ≠ ph →
      blockInsts S.F bb = blockInsts F bb) ∧
    (∀ bb, (blockInsts S.F bb).filter (fun J => J.isTerminator) =
      (blockInsts F bb).filter (fun J => J.isTerminator)) := by
  obtain ⟨dest, hterm, hS⟩ := hoist_some_shape s DT LI L F ph S hwf h
  have htermL : (blockInsts F ph).getLast? = some dest := hterm
  obtain ⟨phPre, hphC⟩ := List.getLast?_eq_some_iff.mp htermL
  have hfinal := DriverInv_final s L DT LI F ph phPre dest hwf hphC
  rw [← hS] at hfinal
  obtain ⟨fA, fB, fC, fD, fPerm, fH, fG⟩ := hfinal
  have hhoistedS : ∀ J ∈ S.hoisted, J ∈ sched DT LI L F := by
    intro J hJ
    have hmem := foldl_processInstr_hoisted_mem s L DT dest.id
      (sched DT LI L F) ⟨F, [], false, []⟩ J (by rw [← hS]; exact hJ)
    rcases hmem with hc | hc
    · exact absurd hc (List.not_mem_nil J)
    · exact hc
  have hhoistedT : ∀ J ∈ S.hoisted, checkInstructionType J = true :=
    hoisted_type_true s DT LI L F S h
  refine ⟨?_, fPerm, ?_, ⟨phPre, dest, hphC, fC⟩, fB, fD, ?_⟩
  · rw [hS]
    exact foldl_processInstr_names s L DT dest.id (sched DT LI L F)
      ⟨F, [], false, []⟩
  · intro J hJ
    obtain ⟨bb, hbb, hJb⟩ := sched_elim (hhoistedS J hJ)
    exact mem_allInstrs_of_mem_blockInsts hJb
  · intro bb
    by_cases hbb : retainedB L LI bb = true
    · rw [fB bb hbb, List.filter_filter]
      apply List.filter_congr
      intro J hJ
      cases ht : J.isTerminator with
      | false => simp
      | true =>
        simp only [Bool.true_and]
        unfold notHoistedB
        rw [List.all_eq_true]
        intro K hK
        apply bne_iff_ne.mpr
        intro hEq
        have hKs := hhoistedS K hK
        have hJs : J ∈ sched DT LI L F :=
          mem_sched DT LI L F ph hwf bb hbb J hJ
        have hKJ : K = J := List.inj_on_of_nodup_map
          (sched_ids_nodup DT LI L F ph hwf) hKs hJs hEq
        have hKt := hhoistedT K hK
        rw [hKJ, terminator_not_eligible J ht] at hKt
        exact Bool.false_ne_true hKt
    · have hbb2 : retainedB L LI bb = false := by
        cases hrb : retainedB L LI bb with
        | false => rfl
        | true => exact absurd hrb hbb
      by_cases hph : bb = ph
      · rw [hph, fC, hphC]
        rw [List.filter_append, List.filter_append, List.filter_append]
        have hnil : S.hoisted.filter (fun J => J.isTerminator) = [] := by
          rw [List.filter_eq_nil_iff]
          intro K hK ht
          have hKt := hhoistedT K hK
          rw [terminator_not_eligible K ht] at hKt
          exact Bool.false_ne_true hKt
        rw [hnil, List.append_nil]
      · rw [fD bb hbb2 hph]

/-- Witness for C9 on the dependent-pair program. -/
theorem hoist_frame_properties_witness :
    exS6.F.map (fun B => B.name) = exF6.map (fun B => B.name) ∧
    (allInstrs exS6.F).Perm (allInstrs exF6) ∧
    (∀ J ∈ exS6.hoisted, J ∈ allInstrs exF6) ∧
    (∃ phPre dest, blockInsts exF6 0 = phPre ++ [dest] ∧
      blockInsts exS6.F 0 = phPre ++ exS6.hoisted ++ [dest]) ∧
    (∀ bb, retainedB exL6 exLI6 bb = true →
      blockInsts exS6.F bb =
        (blockInsts exF6 bb).filter (notHoistedB exS6.hoisted)) ∧
    (∀ bb, retainedB exL6 exLI6 bb = false → bb ≠ 0 →
      blockInsts exS6.F bb = blockInsts exF6 bb) ∧
    (∀ bb, (blockInsts exS6.F bb).filter (fun J => J.isTerminator) =
      (blockInsts exF6 bb).filter (fun J => J.isTerminator)) :=
  hoist_frame_properties oracleTrue exDT6 exLI6 exL6 exF6 0 exS6
    (by unfold WF; decide) (by decide)

end LICMNA
